import Mathlib

/-!
Verification model of the UniviDown server's job-orchestration subsystem
(`server.js`): the FIFO admission queue with bounded concurrency, the
progress store with SSE fan-out, the per-job stdout handlers of the video
and audio download paths, the cancellation logic, the playlist-merge
precheck, the ffmpeg merge argument builder, the filename sanitizer and
the recent-file scan.

Modelling conventions:
* JS numbers that hold progress percentages are modelled as rationals
  (`ℚ`); timestamps (`Date.now()`) as naturals (milliseconds).
* JS `Map`s are modelled as association lists, JS `Set`s (of SSE clients)
  as lists; JS arrays as lists.
* Strings are modelled as Lean `String`/`List Char`; the ASCII-only
  lowercase/uppercase conversions model `toLowerCase`/`toUpperCase` on the
  filename/format strings the server actually handles.
* A worker stdout chunk is modelled by the outcome of the fixed regex /
  substring tests the handler applies to it (the spec treats the worker's
  wire format as an opaque pattern); everything downstream of those tests
  is translated from the source.
-/

/-! ## Configuration constants (CONFIG in server.js) -/

def MAX_CONCURRENT_DOWNLOADS : Nat := 2

def MAX_PLAYLIST_MERGE : Nat := 50

def MAX_FILENAME_LENGTH : Nat := 150

/-! ## Character and string helpers -/

/-- ASCII lowercase of one character (models `toLowerCase` on the ASCII
filenames and format names the server manipulates). -/
def lowerChar (c : Char) : Char :=
  if 'A' ≤ c && c ≤ 'Z' then Char.ofNat (c.toNat + 32) else c

/-- ASCII uppercase of one character (models `toUpperCase`). -/
def upperChar (c : Char) : Char :=
  if 'a' ≤ c && c ≤ 'z' then Char.ofNat (c.toNat - 32) else c

/-- Does the second list start with the first one? -/
def leadsWith : List Char → List Char → Bool
  | [], _ => true
  | _ :: _, [] => false
  | a :: as, b :: bs => a == b && leadsWith as bs

/-- Does `l` end with `tail`? (models JS `String.prototype.endsWith`). -/
def listEndsWith (l tail : List Char) : Bool :=
  leadsWith tail.reverse l.reverse

/-- Does the list contain `needle` as a contiguous run? (models JS
`String.prototype.includes`). -/
def hasSub (needle : List Char) : List Char → Bool
  | [] => needle.isEmpty
  | c :: rest => leadsWith needle (c :: rest) || hasSub needle rest

/-- String-level wrapper for `hasSub`. -/
def strIncludes (s needle : String) : Bool :=
  hasSub needle.toList s.toList

/-! ## sanitizeFilename (server.js lines 402-419)

The JS function is a chain of regex replacements followed by `trim()` and
`substring(0, 150)`; each stage below is the direct translation of one
stage of that chain, operating on the character list of the input. -/

/-- Character class of stage 1's regex: the nine listed filesystem
characters plus the C0 control characters U+0000-U+001F. -/
def badChar (c : Char) : Bool :=
  c == '<' || c == '>' || c == ':' || c == '"' || c == '/' || c == '\\' ||
    c == '|' || c == '?' || c == '*' || decide (c.toNat < 0x20)

/-- Stage 1: replace every `badChar` with an underscore. -/
def replaceBad (l : List Char) : List Char :=
  l.map (fun c => if badChar c then '_' else c)

/-- Stage 2: CR, LF and TAB become spaces (dead after stage 1, kept for
faithfulness to the source chain). -/
def replaceCtrlWs (l : List Char) : List Char :=
  l.map (fun c => if c == '\r' || c == '\n' || c == '\t' then ' ' else c)

/-- Stage 3 worker: the boolean says whether the previous character kept
was a dot (so further dots of the same run are skipped). -/
def collapseDotsAux : Bool → List Char → List Char
  | _, [] => []
  | prevDot, c :: rest =>
    if c == '.' then
      if prevDot then collapseDotsAux true rest
      else '.' :: collapseDotsAux true rest
    else c :: collapseDotsAux false rest

/-- Stage 3: every maximal run of dots is collapsed to a single dot
(the regex only touches runs of length at least two, which yields the
same result). -/
def collapseDots (l : List Char) : List Char :=
  collapseDotsAux false l

/-- Removes the maximal run of characters satisfying `p` from the end of
the list. -/
def dropTrailWhile (p : Char → Bool) : List Char → List Char
  | [] => []
  | c :: rest =>
    match dropTrailWhile p rest with
    | [] => if p c then [] else [c]
    | r => c :: r

/-- Stage 4: strip the leading and the trailing run of dots. -/
def dropEdgeDots (l : List Char) : List Char :=
  dropTrailWhile (· == '.') (l.dropWhile (· == '.'))

/-- JS whitespace (the `\s` class and the `trim()` whitespace set):
space, TAB, LF, CR, VT, FF, NBSP, and the Unicode space separators. -/
def isJsWs (c : Char) : Bool :=
  c == ' ' || c == '\t' || c == '\n' || c == '\r' ||
    c.toNat == 0x0B || c.toNat == 0x0C ||
    c.toNat == 0xA0 || c.toNat == 0x1680 ||
    (decide (0x2000 ≤ c.toNat) && decide (c.toNat ≤ 0x200A)) ||
    c.toNat == 0x2028 || c.toNat == 0x2029 || c.toNat == 0x202F ||
    c.toNat == 0x205F || c.toNat == 0x3000 || c.toNat == 0xFEFF

/-- Stage 5 worker: the boolean says whether the previous character was
whitespace (further whitespace of the same run is dropped). -/
def collapseWsAux : Bool → List Char → List Char
  | _, [] => []
  | prevWs, c :: rest =>
    if isJsWs c then
      if prevWs then collapseWsAux true rest
      else ' ' :: collapseWsAux true rest
    else c :: collapseWsAux false rest

/-- Stage 5: every maximal whitespace run becomes a single space. -/
def collapseWs (l : List Char) : List Char :=
  collapseWsAux false l

/-- Stage 6: `.trim()`. -/
def jsTrim (l : List Char) : List Char :=
  dropTrailWhile isJsWs (l.dropWhile isJsWs)

/-- The whole replacement chain of `sanitizeFilename`, ending with
`.substring(0, CONFIG.MAX_FILENAME_LENGTH)`. -/
def sanitizeChars (l : List Char) : List Char :=
  (jsTrim (collapseWs (dropEdgeDots (collapseDots (replaceCtrlWs (replaceBad l)))))).take
    MAX_FILENAME_LENGTH

/-- `sanitizeFilename(filename)`. `none` models a missing or non-string
argument; `some ""` is the empty string (both are falsy in JS, so both
return the `'download'` default). -/
def sanitizeFilename : Option String → String
  | none => "download"
  | some s => if s == "" then "download" else String.mk (sanitizeChars s.toList)

/-- Adjacent-character condition: not both dots. -/
def okPair (a b : Char) : Bool :=
  !(a == '.' && b == '.')

/-- No two consecutive dots anywhere in the list. -/
def noDD : List Char → Bool
  | a :: b :: rest => okPair a b && noDD (b :: rest)
  | _ => true

/-! ## Progress records (the objects stored in `downloadProgress`)

A JS progress object is a bag of optional properties; `ProgressFields`
lists every property that `updateProgress` call sites in server.js write.
A property that is absent is `none`. -/

/-- One entry of a `files` list pushed into a progress record. Video /
audio completion pushes entries with `mtime`/`extension` set
(`getRecentFiles`); the playlist-merge path pushes entries without them. -/
structure FileInfo where
  name : String
  url : String
  size : Nat
  mtime : Option Nat := none
  extension : Option String := none
deriving DecidableEq

/-- The partial-field argument of `updateProgress(downloadId, data)`, and
also the property bag of a stored record (minus the always-present
`downloadId` and `timestamp`). -/
structure ProgressFields where
  status : Option String := none
  progress : Option ℚ := none
  message : Option String := none
  queuePosition : Option Nat := none
  canCancel : Option Bool := none
  jobType : Option String := none
  format : Option String := none
  files : Option (List FileInfo) := none
  startedAt : Option Nat := none
deriving DecidableEq

/-- A stored progress record: the merged property bag plus the
`downloadId` and `timestamp` properties `updateProgress` always sets. -/
structure ProgressRecord where
  fields : ProgressFields
  downloadId : String
  timestamp : Nat
deriving DecidableEq

/-- JS object spread `{...cur, ...data}`: every property present in
`data` overrides the one in `cur`, absent properties fall through. -/
def mergeFields (cur data : ProgressFields) : ProgressFields where
  status := data.status.orElse fun _ => cur.status
  progress := data.progress.orElse fun _ => cur.progress
  message := data.message.orElse fun _ => cur.message
  queuePosition := data.queuePosition.orElse fun _ => cur.queuePosition
  canCancel := data.canCancel.orElse fun _ => cur.canCancel
  jobType := data.jobType.orElse fun _ => cur.jobType
  format := data.format.orElse fun _ => cur.format
  files := data.files.orElse fun _ => cur.files
  startedAt := data.startedAt.orElse fun _ => cur.startedAt

/-- The effect of one `updateProgress(id, data)` call on the record of
that one job: merge, re-stamp `timestamp` with the current time. -/
def applyFields (r : ProgressRecord) (data : ProgressFields) (now : Nat) : ProgressRecord where
  fields := mergeFields r.fields data
  downloadId := r.downloadId
  timestamp := now

/-- The test `['finished', 'error', 'cancelled'].includes(data.status)`
at the end of `updateProgress` (on the partial fields, not the merged
record; an absent status is not terminal). -/
def terminalFlag (data : ProgressFields) : Bool :=
  match data.status with
  | some st => st == "finished" || st == "error" || st == "cancelled"
  | none => false

/-! ## The progress store and SSE broadcaster (server.js lines 446-489)

`updateProgress` is modelled twice: `updateProgress` is the operational
translation of the source (forEach loops accumulating dead clients, then
per-element deletion), `updateProgressSpec` is the declarative form the
spec describes (merge, stamp, push to live subscribers, prune failed
writers, drop an emptied set). The refinement theorem proves them equal. -/

/-- One SSE subscriber. `writeOk` resolves the only nondeterminism of a
broadcast: whether `client.write` for this message succeeds (`false`
covers both a `false` return and a thrown exception — the source treats
both as a dead client). -/
structure SSEClient where
  cid : Nat
  writeOk : Bool
deriving DecidableEq

/-- Association-list lookup (JS `Map.prototype.get`). -/
def lookupA {β : Type} (m : List (String × β)) (k : String) : Option β :=
  (m.find? (fun p => p.1 == k)).map Prod.snd

/-- Association-list store (JS `Map.prototype.set`): overwrite the
existing key in place, else append. -/
def insertA {β : Type} (m : List (String × β)) (k : String) (v : β) : List (String × β) :=
  if (m.find? (fun p => p.1 == k)).isSome then
    m.map (fun p => if p.1 == k then (k, v) else p)
  else m ++ [(k, v)]

/-- Association-list removal (JS `Map.prototype.delete`). -/
def eraseA {β : Type} (m : List (String × β)) (k : String) : List (String × β) :=
  m.filter (fun p => p.1 != k)

/-- The two maps `updateProgress` touches. -/
structure StoreState where
  downloadProgress : List (String × ProgressRecord)
  sseClients : List (String × List SSEClient)
deriving DecidableEq

/-- Operational translation of `updateProgress(downloadId, data)`.
Returns the new state, the deliveries that reached a subscriber (each
paired with the record it received), and whether a terminal status
scheduled the delayed cleanup. -/
def updateProgress (s : StoreState) (downloadId : String) (data : ProgressFields)
    (now : Nat) : StoreState × List (SSEClient × ProgressRecord) × Bool :=
  let currentProgress := ((lookupA s.downloadProgress downloadId).map (·.fields)).getD {}
  let newProgress : ProgressRecord :=
    { fields := mergeFields currentProgress data, downloadId := downloadId, timestamp := now }
  let progress' := insertA s.downloadProgress downloadId newProgress
  match lookupA s.sseClients downloadId with
  | some clients =>
    if clients.length > 0 then
      let deadClients := clients.foldl (fun acc c => if c.writeOk then acc else acc ++ [c]) []
      let delivered :=
        clients.foldl (fun acc c => if c.writeOk then acc ++ [(c, newProgress)] else acc) []
      let clients' := deadClients.foldl (fun cs dc => cs.erase dc) clients
      let sse' :=
        if clients'.length == 0 then eraseA s.sseClients downloadId
        else insertA s.sseClients downloadId clients'
      (⟨progress', sse'⟩, delivered, terminalFlag data)
    else (⟨progress', s.sseClients⟩, [], terminalFlag data)
  | none => (⟨progress', s.sseClients⟩, [], terminalFlag data)

/-- Declarative form of `update(jobId, partialFields)` as the spec words
it: overlay the partial fields on the previous record (or the empty
record), stamp the current time, store, push the full resulting record to
every live subscriber, prune the subscribers whose write failed, and
delete the subscriber set if it ended up empty. -/
def updateProgressSpec (s : StoreState) (downloadId : String) (data : ProgressFields)
    (now : Nat) : StoreState × List (SSEClient × ProgressRecord) × Bool :=
  let prev := ((lookupA s.downloadProgress downloadId).map (·.fields)).getD {}
  let result : ProgressRecord :=
    { fields := mergeFields prev data, downloadId := downloadId, timestamp := now }
  let subs := (lookupA s.sseClients downloadId).getD []
  let live := subs.filter (·.writeOk)
  let sse' :=
    if subs.isEmpty then s.sseClients
    else if live.isEmpty then eraseA s.sseClients downloadId
    else insertA s.sseClients downloadId live
  (⟨insertA s.downloadProgress downloadId result, sse'⟩,
    live.map (fun c => (c, result)), terminalFlag data)

/-! ## The FIFO admission queue (server.js lines 120-214)

The queue, the active-download counter and the scheduling loop
`processQueue` are modelled as a state machine. The ghost fields
`started` (ids in the order their task thunk was invoked) and
`submitted` (ids in the order `enqueueDownload` was called) record the
observable history the FIFO claims are about; the source mutates only
`activeDownloads` and `downloadQueue`. -/

/-- One entry of `downloadQueue` (the `task` closure is represented by
the ghost `started` history, the id is what identifies it). -/
structure QItem where
  downloadId : String
  addedAt : Nat
deriving DecidableEq

/-- Queue-subsystem state. -/
structure QState where
  activeDownloads : Nat
  downloadQueue : List QItem
  started : List String
  submitted : List String
deriving DecidableEq

/-- The scheduling loop: `while (activeDownloads <
MAX_CONCURRENT_DOWNLOADS && downloadQueue.length > 0)` shift the head,
increment the counter, invoke its task (recorded in `started`). -/
def processQueue (s : QState) : QState :=
  match _h : s.downloadQueue with
  | [] => s
  | item :: rest =>
    if s.activeDownloads < MAX_CONCURRENT_DOWNLOADS then
      processQueue
        { activeDownloads := s.activeDownloads + 1
          downloadQueue := rest
          started := s.started ++ [item.downloadId]
          submitted := s.submitted }
    else s
termination_by s.downloadQueue.length
decreasing_by simp [_h]

/-- `enqueueDownload(downloadId, task)`: push to the tail, then run the
scheduling loop. (The `status: 'queued'` progress write it also performs
is the record update `queuedFields (queue length)`.) -/
def enqueueDownload (s : QState) (downloadId : String) (addedAt : Nat) : QState :=
  processQueue
    { s with
      downloadQueue := s.downloadQueue ++ [⟨downloadId, addedAt⟩]
      submitted := s.submitted ++ [downloadId] }

/-- The `.finally` of a task: decrement the counter and re-run the
scheduling loop. -/
def taskSettled (s : QState) : QState :=
  processQueue { s with activeDownloads := s.activeDownloads - 1 }

/-- `removeFromQueue(downloadId)`: `findIndex` by id, `splice` out that
single entry, report whether an entry was removed. -/
def removeFromQueue (q : List QItem) (downloadId : String) : List QItem × Bool :=
  match q.findIdx? (fun item => item.downloadId == downloadId) with
  | some index => (q.eraseIdx index, true)
  | none => (q, false)

/-- The fields `broadcastQueuePositions` writes into the record of the
entry at (0-based) index `index`: 1-based position `index + 1`. -/
def queuedFields (pos : Nat) : ProgressFields where
  status := some "queued"
  progress := some 0
  message := some ("Menunggu antrian... (Posisi: " ++ toString pos ++ ")")
  queuePosition := some pos

/-- Worker for `broadcastQueuePositions`: the `forEach((item, index))`
loop, with `i` the index of the first remaining entry. -/
def broadcastFrom : Nat → List QItem → List (String × ProgressFields)
  | _, [] => []
  | i, item :: rest => (item.downloadId, queuedFields (i + 1)) :: broadcastFrom (i + 1) rest

/-- `broadcastQueuePositions()`: the sequence of `updateProgress` calls
it performs, one per queued entry, carrying the new 1-based position. -/
def broadcastQueuePositions (q : List QItem) : List (String × ProgressFields) :=
  broadcastFrom 0 q

/-- The events that mutate the queue subsystem (each is one event-loop
turn of the source: a POST /api/download enqueue, a task settling, a
cancellation of a queued job). -/
inductive QEvent where
  | submit (downloadId : String) (addedAt : Nat)
  | taskDone
  | cancel (downloadId : String)
deriving DecidableEq

/-- One event-loop turn of the queue subsystem. -/
def qstep (s : QState) : QEvent → QState
  | .submit downloadId addedAt => enqueueDownload s downloadId addedAt
  | .taskDone => taskSettled s
  | .cancel downloadId =>
    { s with downloadQueue := (removeFromQueue s.downloadQueue downloadId).1 }

/-- Run a sequence of queue events. -/
def runEvents (s : QState) (evs : List QEvent) : QState :=
  evs.foldl qstep s

/-- The state at server start. -/
def initQState : QState where
  activeDownloads := 0
  downloadQueue := []
  started := []
  submitted := []

/-! ## getRecentFiles (server.js lines 1508-1533) -/

/-- One raw entry of the downloads directory; `stat = none` models a
`statSync` failure (the source maps it to `null` and filters it out). -/
structure DirEntry where
  name : String
  stat : Option (Nat × Nat)
deriving DecidableEq

/-- Characters after the last dot of the tail of the list (`none` if the
tail has no dot). -/
def afterLastDot : List Char → Option (List Char)
  | [] => none
  | c :: rest =>
    match afterLastDot rest with
    | some r => some r
    | none => if c == '.' then some rest else none

/-- `path.extname(f).slice(1).toLowerCase()`: the characters after the
last dot, lowercased; a leading dot alone does not start an extension. -/
def extnameDotLower (f : String) : String :=
  match f.toList with
  | [] => ""
  | _ :: rest => String.mk (((afterLastDot rest).getD []).map lowerChar)

/-- `f.toLowerCase().endsWith(extension.toLowerCase())`. -/
def endsWithCI (f ext : String) : Bool :=
  listEndsWith (f.toList.map lowerChar) (ext.toList.map lowerChar)

/-- Modification time used by the sort comparator (`b.mtime - a.mtime`);
every entry surviving the `filterMap` carries `some mtime`. -/
def mtime0 (f : FileInfo) : Nat :=
  f.mtime.getD 0

/-- Sort order of `getRecentFiles`: newer (larger mtime) first. -/
def mtimeGe (a b : FileInfo) : Prop :=
  mtime0 b ≤ mtime0 a

instance : DecidableRel mtimeGe := fun a b => Nat.decLe (mtime0 b) (mtime0 a)

instance : IsTotal FileInfo mtimeGe := ⟨fun a b => Nat.le_total (mtime0 b) (mtime0 a)⟩

instance : IsTrans FileInfo mtimeGe :=
  ⟨fun _ _ _ hab hbc => le_trans hbc hab⟩

/-- `getRecentFiles(dir, extension, limit)`: filter the directory by
(case-insensitive) extension, stat each file, sort newest-first (the
source's stable comparator sort is `insertionSort` by `mtimeGe`),
truncate to `limit`. -/
def getRecentFiles (entries : List DirEntry) (extension : String) (limit : Nat) :
    List FileInfo :=
  ((List.insertionSort mtimeGe
      ((entries.filter (fun e => endsWithCI e.name extension)).filterMap
        (fun e =>
          e.stat.map (fun st =>
            ({ name := e.name, url := "/downloads/" ++ e.name, size := st.1,
               mtime := some st.2, extension := some (extnameDotLower e.name) } : FileInfo))))).take
    limit)

/-! ## The video download path (server.js lines 1004-1168)

The stdout handler of the spawned yt-dlp process is modelled by
`videoStdoutStep`. A data chunk is represented by the outcome of the
fixed pattern tests the handler applies to it. -/

/-- Outcome of the pattern tests on one stdout chunk of the video path:
`downloadPercent` is the captured group of the download-progress regex
(as a rational percentage), the flags are the `includes` marker tests. -/
structure VideoChunk where
  downloadPercent : Option ℚ
  hasMerger : Bool
  hasEmbedThumbnail : Bool
  hasMetadata : Bool
  hasSubtitlesConvertor : Bool
deriving DecidableEq

/-- A chunk carrying only a download-percentage line. -/
def dlChunk (p : ℚ) : VideoChunk where
  downloadPercent := some p
  hasMerger := false
  hasEmbedThumbnail := false
  hasMetadata := false
  hasSubtitlesConvertor := false

/-- Handler-local state of one video download: the job's progress record
and the 500 ms throttle stamp `lastProgressUpdate`. -/
structure VideoDLState where
  record : ProgressRecord
  lastProgressUpdate : Nat
deriving DecidableEq

/-- Percentage display in a progress message (the source formats the raw
percentage with `toFixed(1)`; the numeric formatting is not modelled). -/
def pctDisplay (p : ℚ) : String :=
  toString p

/-- The `ytdlp.stdout.on('data')` handler of `downloadVideo`: an early
return when the cancellation flag is set, then the throttled
download-percentage update (progress `min(percent * 0.85, 85)`), then
the four marker checkpoints (88 / 92 / 95 / 93). -/
def videoStdoutStep (cancelled : Bool) (now : Nat) (s : VideoDLState) (c : VideoChunk) :
    VideoDLState :=
  if cancelled then s
  else
    let s1 :=
      if now - s.lastProgressUpdate > 500 then
        match c.downloadPercent with
        | some percent =>
          { record :=
              applyFields s.record
                { status := some "downloading_video"
                  progress := some (min (percent * (85 / 100)) 85)
                  message := some ("Mengunduh video: " ++ pctDisplay percent ++ "%") } now
            lastProgressUpdate := now }
        | none => s
      else s
    let s2 :=
      if c.hasMerger then
        { s1 with
          record :=
            applyFields s1.record
              { status := some "postprocessing", progress := some 88
                message := some "Menggabungkan video dan audio..." } now }
      else s1
    let s3 :=
      if c.hasEmbedThumbnail then
        { s2 with
          record :=
            applyFields s2.record
              { status := some "embedding_metadata", progress := some 92
                message := some "Menyematkan thumbnail..." } now }
      else s2
    let s4 :=
      if c.hasMetadata then
        { s3 with
          record :=
            applyFields s3.record
              { status := some "embedding_metadata", progress := some 95
                message := some "Menambahkan metadata..." } now }
      else s3
    if c.hasSubtitlesConvertor then
      { s4 with
        record :=
          applyFields s4.record
            { status := some "postprocessing", progress := some 93
              message := some "Mengkonversi subtitle..." } now }
    else s4

/-- Fold the handler over a sequence of (arrival time, chunk) pairs. -/
def runVideoChunks (cancelled : Bool) (s : VideoDLState) (chunks : List (Nat × VideoChunk)) :
    VideoDLState :=
  chunks.foldl (fun st nc => videoStdoutStep cancelled nc.1 st nc.2) s

/-- The numeric progress stored in a handler state (a record fresh from
`downloadVideo`'s first update always carries `some` progress). -/
def progAt (s : VideoDLState) : ℚ :=
  (s.record.fields.progress).getD 0

/-- The handler state right after `downloadVideo`'s initial
`status: 'downloading_video', progress: 0` update on a record created at
submission, with `lastProgressUpdate = 0`. -/
def initVideoState (downloadId : String) (now : Nat) : VideoDLState where
  record :=
    applyFields ⟨{}, downloadId, 0⟩
      { status := some "downloading_video", progress := some 0
        message := some "Mengunduh video..." } now
  lastProgressUpdate := 0

/-! ## The audio download path stdout handler (server.js lines 1263-1325) -/

/-- Outcome of the pattern tests on one stdout chunk of the audio path. -/
structure AudioChunk where
  playlistItem : Option (Nat × Nat)
  downloadPercent : Option ℚ
  hasExtractAudio : Bool
  hasEmbedThumbnail : Bool
  hasMetadata : Bool
deriving DecidableEq

/-- Handler-local state of one audio download. -/
structure AudioDLState where
  record : ProgressRecord
  totalVideos : Nat
  currentVideo : Nat
  lastProgressUpdate : Nat
deriving DecidableEq

/-- The `ytdlp.stdout.on('data')` handler of `downloadAudio`: early
return on the cancellation flag, playlist item bookkeeping, the
throttled percentage update (blended across playlist items, scaled by
0.80 and capped at 80), then the marker checkpoints (85 / 90 / 93). -/
def audioStdoutStep (cancelled : Bool) (now : Nat) (format : String) (s : AudioDLState)
    (c : AudioChunk) : AudioDLState :=
  if cancelled then s
  else
    let s1 :=
      match c.playlistItem with
      | some cv => { s with currentVideo := cv.1, totalVideos := cv.2 }
      | none => s
    let s2 :=
      if now - s1.lastProgressUpdate > 500 then
        match c.downloadPercent with
        | some raw =>
          let blended :=
            if s1.totalVideos > 1 then
              ((s1.currentVideo : ℚ) - 1) / (s1.totalVideos : ℚ) * 100 +
                raw / 100 * (100 / (s1.totalVideos : ℚ))
            else raw
          let percent := min (blended * (80 / 100)) 80
          { s1 with
            record :=
              applyFields s1.record
                { status := some "downloading_audio", progress := some percent
                  message :=
                    some
                      (if s1.totalVideos > 1 then
                        "Mengunduh " ++ toString s1.currentVideo ++ "/" ++
                          toString s1.totalVideos ++ ": " ++ pctDisplay raw ++ "%"
                      else "Mengunduh audio: " ++ pctDisplay raw ++ "%") } now
            lastProgressUpdate := now }
        | none => s1
      else s1
    let s3 :=
      if c.hasExtractAudio then
        { s2 with
          record :=
            applyFields s2.record
              { status := some "converting_audio", progress := some 85
                message :=
                  some ("Mengkonversi ke " ++ String.mk (format.toList.map upperChar) ++ "...") }
              now }
      else s2
    let s4 :=
      if c.hasEmbedThumbnail then
        { s3 with
          record :=
            applyFields s3.record
              { status := some "embedding_metadata", progress := some 90
                message := some "Menyematkan cover art..." } now }
      else s3
    if c.hasMetadata then
      { s4 with
        record :=
          applyFields s4.record
            { status := some "embedding_metadata", progress := some 93
              message := some "Menambahkan metadata..." } now }
    else s4

/-! ## Job lifecycle: cancellation, worker exit, error reporting
(server.js lines 810-875, 930-998, 1134-1166) -/

/-- Per-job lifecycle state: the job's progress record and the
`cancelled` flag of its `activeProcesses` entry. -/
structure LifeState where
  record : ProgressRecord
  cancelled : Bool
deriving DecidableEq

/-- The active-process branch of `POST /api/cancel/:id`: set the
cancellation flag, kill the processes (not modelled), write the
`cancelled` record. -/
def cancelActive (s : LifeState) (now : Nat) : LifeState where
  cancelled := true
  record :=
    applyFields s.record
      { status := some "cancelled", progress := some 0
        message := some "Download dibatalkan", canCancel := some false } now

/-- The `ytdlp.on('close')` handler of `downloadVideo`: a cancelled job
rejects with `'Download dibatalkan'` and writes nothing; exit code 0
writes the `finalizing` then the `finished` record (file list scanned
from the shared downloads directory) and resolves; any other exit code
rejects with the generic failure message. -/
def videoCloseStep (s : LifeState) (code : Int) (dir : List DirEntry) (format : String)
    (now : Nat) : LifeState × Except String Unit :=
  if s.cancelled then (s, .error "Download dibatalkan")
  else if code = 0 then
    let r1 :=
      applyFields s.record
        { status := some "finalizing", progress := some 98
          message := some "Memfinalisasi file..." } now
    let files := getRecentFiles dir ("." ++ (if format == "" then "mp4" else format)) 5
    let r2 :=
      applyFields r1
        { status := some "finished", progress := some 100
          message := some "Download selesai!", files := some files
          canCancel := some false } now
    ({ s with record := r2 }, .ok ())
  else (s, .error "Download video gagal")

/-- The `catch` of `processDownload`: a rejection of a job whose
cancellation flag is set is swallowed; otherwise the generic
error-reporting path writes the `error` record. -/
def processCatch (s : LifeState) (outcome : Except String Unit) (now : Nat) : LifeState :=
  match outcome with
  | .ok _ => s
  | .error msg =>
    if s.cancelled then s
    else
      { s with
        record :=
          applyFields s.record
            { status := some "error", progress := some 0, message := some msg
              canCancel := some false } now }

/-! ## The playlist-merge precheck of downloadAudio (server.js lines
1180-1207) -/

/-- Observable outcome of the opening section of `downloadAudio`:
whether the pre-count subprocess ran, whether the job was rejected (and
with what message) before anything else happened, whether the per-job
scratch directory was created, and whether the download process was
spawned. -/
structure AudioStart where
  precountRan : Bool
  rejected : Option String
  tempDirCreated : Bool
  downloadStarted : Bool
deriving DecidableEq

/-- Rejection message of the merge precheck. -/
def playlistTooBigMsg (n : Nat) : String :=
  "Playlist terlalu besar untuk merge (" ++ toString n ++ " video, max " ++
    toString MAX_PLAYLIST_MERGE ++ ")"

/-- The opening of `downloadAudio(url, format, merge, ...)`: the
pre-count runs only when `merge && url.includes('playlist?list=')`;
`countResult` is the outcome of that subprocess on the actual source
(`some n`: exit 0 with `n` items; `none`: non-zero exit or spawn error
— the source then proceeds without a check). Only a count above
`MAX_PLAYLIST_MERGE` rejects; otherwise the scratch directory is created
(when merging) and the download starts. -/
def audioStart (url : String) (merge : Bool) (countResult : Option Nat) : AudioStart :=
  if merge && strIncludes url "playlist?list=" then
    match countResult with
    | some n =>
      if n > MAX_PLAYLIST_MERGE then
        { precountRan := true, rejected := some (playlistTooBigMsg n)
          tempDirCreated := false, downloadStarted := false }
      else
        { precountRan := true, rejected := none, tempDirCreated := merge
          downloadStarted := true }
    | none =>
      { precountRan := true, rejected := none, tempDirCreated := merge
        downloadStarted := true }
  else
    { precountRan := false, rejected := none, tempDirCreated := merge
      downloadStarted := true }

/-! ## mergeAudioFiles ffmpeg invocation (server.js lines 1449-1478) -/

/-- The loudness-normalization filter value. -/
def loudnormFilter : String :=
  "loudnorm=I=-16:LRA=11:TP=-1.5"

/-- Codec arguments chosen by the `switch (format)`. -/
def mergeCodecArgs : String → List String
  | "mp3" => ["-c:a", "libmp3lame", "-b:a", "320k"]
  | "flac" => ["-c:a", "flac"]
  | "wav" => ["-c:a", "pcm_s16le"]
  | "opus" => ["-c:a", "libopus", "-b:a", "192k"]
  | _ => ["-c:a", "copy"]

/-- The full ffmpeg argument list of the merge step: concat input,
format-chosen codec, the loudness filter when `normalizeAudio && format
!== 'flac'`, overwrite flag and output path. -/
def mergeFfmpegArgs (concatFile format : String) (normalizeAudio : Bool)
    (outputFile : String) : List String :=
  ["-f", "concat", "-safe", "0", "-i", concatFile] ++ mergeCodecArgs format ++
    (if normalizeAudio && format != "flac" then ["-af", loudnormFilter] else []) ++
    ["-y", outputFile]

/-- Which of the five accepted audio target formats are lossless. This
definition follows the spec's words ("unless the target format is
lossless"), to be compared with the source's `format !== 'flac'` test:
both FLAC and WAV (16-bit PCM) are lossless encodings. -/
def isLosslessFormat (format : String) : Bool :=
  format == "flac" || format == "wav"

/-! # Theorems -/

/-! ## C6: output after the cancellation flag is discarded -/

/-- C6: for every job whose cancellation flag has been set, a worker
stdout chunk arriving afterwards is discarded without mutating the
handler state — in particular the progress record (status, progress,
message, files, timestamp) is identical before and after. -/
theorem cancelled_discards_output (now now' : Nat) (format : String) (s : VideoDLState)
    (c : VideoChunk) (s' : AudioDLState) (c' : AudioChunk) :
    videoStdoutStep true now s c = s ∧ audioStdoutStep true now' format s' c' = s' := by
  constructor <;> simp [videoStdoutStep, audioStdoutStep]

/-! ## C3: cancellation is never reported as an error -/

/-- C3: a job cancelled mid-run resolves with the cancellation rejection
(distinct from success and from the generic failure message), its record
keeps terminal status `cancelled` and never `error`, and the generic
error-reporting path of `processDownload` leaves the record untouched. -/
theorem cancelled_job_never_error (s0 : LifeState) (code : Int) (dir : List DirEntry)
    (format : String) (t1 t2 t3 : Nat) :
    ((videoCloseStep (cancelActive s0 t1) code dir format t2).2 =
        Except.error "Download dibatalkan") ∧
      ((videoCloseStep (cancelActive s0 t1) code dir format t2).2 ≠
        Except.error "Download video gagal") ∧
      (processCatch (videoCloseStep (cancelActive s0 t1) code dir format t2).1
            (videoCloseStep (cancelActive s0 t1) code dir format t2).2 t3).record =
        (cancelActive s0 t1).record ∧
      (processCatch (videoCloseStep (cancelActive s0 t1) code dir format t2).1
            (videoCloseStep (cancelActive s0 t1) code dir format t2).2 t3).record.fields.status =
        some "cancelled" ∧
      (processCatch (videoCloseStep (cancelActive s0 t1) code dir format t2).1
            (videoCloseStep (cancelActive s0 t1) code dir format t2).2 t3).record.fields.status ≠
        some "error" := by
  have hc : (cancelActive s0 t1).cancelled = true := rfl
  simp [videoCloseStep, hc, processCatch, cancelActive, applyFields, mergeFields, Option.orElse]

/-! ## C4: the playlist-merge precheck -/

/-- C4 counterexample: a merge job over a 60-item multi-item source
whose URL does not contain the literal substring `playlist?list=` (for
example a SoundCloud set) skips the pre-count entirely: it is not
rejected, the scratch directory is created and the download begins, even
though 60 exceeds the ceiling of 50. -/
theorem merge_precount_skipped_counterexample :
    audioStart "https://soundcloud.com/artist/sets/mix" true (some 60) =
      { precountRan := false, rejected := none, tempDirCreated := true,
        downloadStarted := true } := by
  decide

/-- C4 (amended): for a merge job whose URL contains `playlist?list=`
and whose pre-count subprocess succeeds with an item count above
`MAX_PLAYLIST_MERGE`, the job is rejected with the precondition error
before the scratch directory is created and before the download starts. -/
theorem merge_precount_rejects (url : String) (n : Nat)
    (hurl : strIncludes url "playlist?list=" = true) (hn : n > MAX_PLAYLIST_MERGE) :
    audioStart url true (some n) =
      { precountRan := true, rejected := some (playlistTooBigMsg n),
        tempDirCreated := false, downloadStarted := false } := by
  simp [audioStart, hurl, hn]

/-- C4 witness: the amended theorem applies to a 60-item YouTube playlist
merge. -/
theorem merge_precount_rejects_witness :
    strIncludes "https://www.youtube.com/playlist?list=PL123" "playlist?list=" = true ∧
      60 > MAX_PLAYLIST_MERGE ∧
      audioStart "https://www.youtube.com/playlist?list=PL123" true (some 60) =
        { precountRan := true, rejected := some (playlistTooBigMsg 60),
          tempDirCreated := false, downloadStarted := false } :=
  ⟨by decide, by decide,
    merge_precount_rejects "https://www.youtube.com/playlist?list=PL123" 60 (by decide)
      (by decide)⟩

/-! ## C8: the loudness filter and lossless formats -/

/-- C8 counterexample: `wav` is a lossless target format, yet a merge
with normalization requested does include the loudness filter — the
source only exempts `flac`. -/
theorem loudnorm_lossless_counterexample :
    isLosslessFormat "wav" = true ∧
      loudnormFilter ∈ mergeFfmpegArgs "concat.txt" "wav" true "out.wav" ∧
      "-af" ∈ mergeFfmpegArgs "concat.txt" "wav" true "out.wav" := by
  refine ⟨by decide, ?_, ?_⟩ <;> simp [mergeFfmpegArgs, mergeCodecArgs, loudnormFilter]

/-- C8 (amended): the merge invocation includes the loudness filter iff
normalization was requested and the target format is not `flac` (so the
filter is applied to the lossless `wav` as well). Stated for paths that
do not themselves equal the filter string, which the source's generated
concat/output paths never do. -/
theorem loudnorm_iff_normalize_and_not_flac (concatFile format : String)
    (normalizeAudio : Bool) (outputFile : String)
    (hc : concatFile ≠ loudnormFilter) (ho : outputFile ≠ loudnormFilter) :
    loudnormFilter ∈ mergeFfmpegArgs concatFile format normalizeAudio outputFile ↔
      normalizeAudio = true ∧ format ≠ "flac" := by
  have hcodec : loudnormFilter ∉ mergeCodecArgs format := by
    unfold mergeCodecArgs
    split <;> decide
  constructor
  · intro hmem
    by_cases hcond : (normalizeAudio && format != "flac") = true
    · have := hcond
      simp only [Bool.and_eq_true, bne_iff_ne, ne_eq] at this
      exact ⟨this.1, this.2⟩
    · exfalso
      simp only [mergeFfmpegArgs, if_neg hcond, List.append_nil, List.mem_append] at hmem
      rcases hmem with (hbase | hcodecMem) | htail
      · simp only [List.mem_cons, List.not_mem_nil, or_false] at hbase
        rcases hbase with h | h | h | h | h | h
        · exact absurd h (by decide)
        · exact absurd h (by decide)
        · exact absurd h (by decide)
        · exact absurd h (by decide)
        · exact absurd h (by decide)
        · exact hc h.symm
      · exact hcodec hcodecMem
      · simp only [List.mem_cons, List.not_mem_nil, or_false] at htail
        rcases htail with h | h
        · exact absurd h (by decide)
        · exact ho h.symm
  · rintro ⟨hb, hf⟩
    have : (normalizeAudio && format != "flac") = true := by
      simp [hb, hf]
    simp [mergeFfmpegArgs, this]

/-- C8 witness: the amended equivalence applied to an mp3 merge with
normalization requested. -/
theorem loudnorm_iff_witness :
    ("list.txt" ≠ loudnormFilter) ∧ ("out.mp3" ≠ loudnormFilter) ∧
      (loudnormFilter ∈ mergeFfmpegArgs "list.txt" "mp3" true "out.mp3" ↔
        true = true ∧ "mp3" ≠ "flac") :=
  ⟨by decide, by decide,
    loudnorm_iff_normalize_and_not_flac "list.txt" "mp3" true "out.mp3" (by decide) (by decide)⟩

/-! ## C5: updateProgress is exactly merge-stamp-store-broadcast-prune -/

/-- The dead-client accumulation loop is a filter. -/
theorem foldl_dead_eq (p : SSEClient → Bool) (l : List SSEClient) (acc : List SSEClient) :
    l.foldl (fun a c => if p c then a else a ++ [c]) acc = acc ++ l.filter (fun c => !p c) := by
  induction l generalizing acc with
  | nil => simp
  | cons c t ih =>
    by_cases hp : p c = true
    · simp [hp, ih]
    · simp only [Bool.not_eq_true] at hp
      simp [hp, ih]

/-- The delivery accumulation loop is a filter-and-map. -/
theorem foldl_delivered_eq (p : SSEClient → Bool) (r : ProgressRecord) (l : List SSEClient)
    (acc : List (SSEClient × ProgressRecord)) :
    l.foldl (fun a c => if p c then a ++ [(c, r)] else a) acc
      = acc ++ (l.filter p).map (fun c => (c, r)) := by
  induction l generalizing acc with
  | nil => simp
  | cons c t ih =>
    by_cases hp : p c = true
    · simp [hp, ih]
    · simp only [Bool.not_eq_true] at hp
      simp [hp, ih]

/-- Erasing elements that all fail `p` commutes with a head that
satisfies `p`. -/
theorem foldl_erase_cons (p : SSEClient → Bool) (c : SSEClient) (hp : p c = true)
    (ds : List SSEClient) :
    ∀ t : List SSEClient, (∀ d ∈ ds, p d = false) →
      ds.foldl (fun cs dc => cs.erase dc) (c :: t)
        = c :: ds.foldl (fun cs dc => cs.erase dc) t := by
  induction ds with
  | nil => intro t _; rfl
  | cons d ds ih =>
    intro t hall
    have hd : p d = false := hall d (List.mem_cons_self _ _)
    have hne : (c == d) = false := by
      apply beq_eq_false_iff_ne.mpr
      intro hcd
      rw [hcd, hd] at hp
      exact Bool.false_ne_true hp
    simp only [List.foldl_cons]
    rw [List.erase_cons_tail (by simp [hne])]
    exact ih (t.erase d) (fun x hx => hall x (List.mem_cons_of_mem _ hx))

/-- Deleting every dead client one by one from the subscriber list
leaves exactly the live ones. -/
theorem foldl_erase_filter (p : SSEClient → Bool) (l : List SSEClient) :
    (l.filter (fun c => !p c)).foldl (fun cs dc => cs.erase dc) l = l.filter p := by
  induction l with
  | nil => rfl
  | cons c t ih =>
    by_cases hp : p c = true
    · have hfilter : (c :: t).filter (fun c => !p c) = t.filter (fun c => !p c) := by
        simp [hp]
      rw [hfilter,
        foldl_erase_cons p c hp _ t (fun d hd => by
          have := List.of_mem_filter hd
          simpa using this),
        ih]
      simp [hp]
    · simp only [Bool.not_eq_true] at hp
      have hfilter : (c :: t).filter (fun c => !p c) = c :: t.filter (fun c => !p c) := by
        simp [hp]
      rw [hfilter, List.foldl_cons, List.erase_cons_head, ih]
      simp [hp]

/-- C5: the operational `updateProgress` of the source equals the
declarative merge-stamp-store-broadcast-prune-delete described by the
spec, for every store state, job identifier, partial fields and time. -/
theorem updateProgress_matches_spec (s : StoreState) (downloadId : String)
    (data : ProgressFields) (now : Nat) :
    updateProgress s downloadId data now = updateProgressSpec s downloadId data now := by
  unfold updateProgress updateProgressSpec
  cases h : lookupA s.sseClients downloadId with
  | none => simp
  | some clients =>
    cases clients with
    | nil => simp
    | cons c0 cs =>
      have hlen : (c0 :: cs).length > 0 := Nat.succ_pos _
      simp only [Option.getD_some, List.isEmpty_cons, if_pos hlen, Bool.false_eq_true,
        if_false]
      rw [foldl_dead_eq (·.writeOk) (c0 :: cs) [], List.nil_append,
        foldl_delivered_eq (·.writeOk) _ (c0 :: cs) [], List.nil_append,
        foldl_erase_filter (·.writeOk) (c0 :: cs)]
      have hiff : (((c0 :: cs).filter (·.writeOk)).length == 0)
          = ((c0 :: cs).filter (·.writeOk)).isEmpty := by
        cases (c0 :: cs).filter (·.writeOk) <;> rfl
      rw [hiff]

/-! ## C1: concurrency ceiling and FIFO start order -/

/-- Closed form of the scheduling loop: it starts exactly the first
`min (MAX_CONCURRENT_DOWNLOADS - active) (queue length)` entries of the
queue, head first and in queue order, incrementing the active counter
for each. -/
theorem processQueue_core (q : List QItem) :
    ∀ (a : Nat) (st sub : List String),
      processQueue ⟨a, q, st, sub⟩ =
        ⟨a + min (MAX_CONCURRENT_DOWNLOADS - a) q.length,
         q.drop (min (MAX_CONCURRENT_DOWNLOADS - a) q.length),
         st ++ (q.take (min (MAX_CONCURRENT_DOWNLOADS - a) q.length)).map QItem.downloadId,
         sub⟩ := by
  induction q with
  | nil =>
    intro a st sub
    rw [processQueue]
    simp
  | cons item rest ih =>
    intro a st sub
    rw [processQueue]
    by_cases ha : a < MAX_CONCURRENT_DOWNLOADS
    · simp only [if_pos ha]
      rw [ih (a + 1) (st ++ [item.downloadId]) sub]
      have hk : min (MAX_CONCURRENT_DOWNLOADS - a) (item :: rest).length
          = min (MAX_CONCURRENT_DOWNLOADS - (a + 1)) rest.length + 1 := by
        simp only [List.length_cons]
        omega
      rw [hk]
      simp only [QState.mk.injEq, List.drop_succ_cons, List.take_succ_cons, List.map_cons,
        List.append_assoc, List.singleton_append, List.cons_append, and_true, true_and]
      exact ⟨by omega, by simp⟩
    · simp only [if_neg ha]
      have h0 : MAX_CONCURRENT_DOWNLOADS - a = 0 := by omega
      simp [h0]

/-- Record-level restatement of `processQueue_core`. -/
theorem processQueue_eq (s : QState) :
    processQueue s =
      ⟨s.activeDownloads +
          min (MAX_CONCURRENT_DOWNLOADS - s.activeDownloads) s.downloadQueue.length,
        s.downloadQueue.drop
          (min (MAX_CONCURRENT_DOWNLOADS - s.activeDownloads) s.downloadQueue.length),
        s.started ++
          (s.downloadQueue.take
              (min (MAX_CONCURRENT_DOWNLOADS - s.activeDownloads) s.downloadQueue.length)).map
            QItem.downloadId,
        s.submitted⟩ := by
  cases s
  exact processQueue_core _ _ _ _

/-- The scheduling loop never pushes the active counter above the
ceiling. -/
theorem processQueue_active_le (s : QState)
    (h : s.activeDownloads ≤ MAX_CONCURRENT_DOWNLOADS) :
    (processQueue s).activeDownloads ≤ MAX_CONCURRENT_DOWNLOADS := by
  rw [processQueue_eq]
  simp only
  omega

/-- The scheduling loop moves ids from the queue to the start history
without reordering: the concatenated history is unchanged. -/
theorem processQueue_history (s : QState) :
    (processQueue s).started ++ (processQueue s).downloadQueue.map QItem.downloadId
      = s.started ++ s.downloadQueue.map QItem.downloadId := by
  rw [processQueue_eq]
  simp only [List.append_assoc]
  rw [← List.map_append, List.take_append_drop]

/-- The scheduling loop does not touch the submission history. -/
theorem processQueue_submitted (s : QState) :
    (processQueue s).submitted = s.submitted := by
  rw [processQueue_eq]

/-- Cancellation removes at most one entry, so the remaining queue is a
sublist of the previous one. -/
theorem removeFromQueue_sublist (q : List QItem) (downloadId : String) :
    List.Sublist (removeFromQueue q downloadId).1 q := by
  unfold removeFromQueue
  cases h : q.findIdx? (fun item => item.downloadId == downloadId) with
  | none => exact List.Sublist.refl q
  | some i => exact List.eraseIdx_sublist q i

/-- One queue event preserves the two queue invariants: the counter
stays at or below the ceiling, and the start history followed by the
queued ids stays a sublist of the submission history. -/
theorem qstep_inv (s : QState) (e : QEvent)
    (h1 : s.activeDownloads ≤ MAX_CONCURRENT_DOWNLOADS)
    (h2 : List.Sublist (s.started ++ s.downloadQueue.map QItem.downloadId) s.submitted) :
    (qstep s e).activeDownloads ≤ MAX_CONCURRENT_DOWNLOADS ∧
      List.Sublist ((qstep s e).started ++ (qstep s e).downloadQueue.map QItem.downloadId)
        (qstep s e).submitted := by
  cases e with
  | submit downloadId addedAt =>
    simp only [qstep, enqueueDownload]
    refine ⟨processQueue_active_le _ h1, ?_⟩
    rw [processQueue_history, processQueue_submitted]
    simp only [List.map_append, List.map_cons, List.map_nil, ← List.append_assoc]
    exact List.Sublist.append h2 (List.Sublist.refl _)
  | taskDone =>
    simp only [qstep, taskSettled]
    refine ⟨processQueue_active_le _ (by simp only; omega), ?_⟩
    rw [processQueue_history, processQueue_submitted]
    exact h2
  | cancel downloadId =>
    simp only [qstep]
    refine ⟨h1, ?_⟩
    refine List.Sublist.trans ?_ h2
    exact List.Sublist.append_left
      (List.Sublist.map _ (removeFromQueue_sublist s.downloadQueue downloadId)) _

/-- The queue invariants hold along every event sequence. -/
theorem runEvents_inv (evs : List QEvent) :
    ∀ s : QState, s.activeDownloads ≤ MAX_CONCURRENT_DOWNLOADS →
      List.Sublist (s.started ++ s.downloadQueue.map QItem.downloadId) s.submitted →
      (runEvents s evs).activeDownloads ≤ MAX_CONCURRENT_DOWNLOADS ∧
        List.Sublist
          ((runEvents s evs).started ++ (runEvents s evs).downloadQueue.map QItem.downloadId)
          (runEvents s evs).submitted := by
  induction evs with
  | nil => intro s h1 h2; exact ⟨h1, h2⟩
  | cons e evs ih =>
    intro s h1 h2
    have h := qstep_inv s e h1 h2
    exact ih (qstep s e) h.1 h.2

/-- C1: along every sequence of submissions, completions and
cancellations, the active-execution count never exceeds
`MAX_CONCURRENT_DOWNLOADS`, and execution begins in submission (FIFO)
order: the start history is always a sublist of the submission history.
Moreover the scheduling loop always starts the current head of the
queue first (closed form `processQueue_eq`). -/
theorem queue_ceiling_and_fifo :
    (∀ evs : List QEvent,
        (runEvents initQState evs).activeDownloads ≤ MAX_CONCURRENT_DOWNLOADS ∧
          List.Sublist (runEvents initQState evs).started (runEvents initQState evs).submitted) ∧
      (∀ s : QState,
        processQueue s =
          ⟨s.activeDownloads +
              min (MAX_CONCURRENT_DOWNLOADS - s.activeDownloads) s.downloadQueue.length,
            s.downloadQueue.drop
              (min (MAX_CONCURRENT_DOWNLOADS - s.activeDownloads) s.downloadQueue.length),
            s.started ++
              (s.downloadQueue.take
                  (min (MAX_CONCURRENT_DOWNLOADS - s.activeDownloads)
                    s.downloadQueue.length)).map QItem.downloadId,
            s.submitted⟩) := by
  constructor
  · intro evs
    have h := runEvents_inv evs initQState (by decide) (by simp [initQState])
    refine ⟨h.1, ?_⟩
    exact List.Sublist.trans (List.sublist_append_left _ _) h.2
  · exact processQueue_eq

/-! ## C7: cancelling a queued job -/

/-- `findIndex` on a queue whose first match sits behind `pre`. -/
theorem findIdx_split (pre : List QItem) (x : QItem) (post : List QItem)
    (downloadId : String) (hx : x.downloadId = downloadId)
    (hpre : ∀ y ∈ pre, y.downloadId ≠ downloadId) :
    ∀ i, (pre ++ x :: post).findIdx? (fun item => item.downloadId == downloadId) i
      = some (i + pre.length) := by
  induction pre with
  | nil =>
    intro i
    simp [List.findIdx?_cons, hx]
  | cons y pre ih =>
    intro i
    have hy : (y.downloadId == downloadId) = false := by
      simp [hpre y (List.mem_cons_self _ _)]
    rw [List.cons_append, List.findIdx?_cons, hy]
    simp only [Bool.false_eq_true, if_false]
    rw [ih (fun z hz => hpre z (List.mem_cons_of_mem _ hz)) (i + 1)]
    simp only [List.length_cons]
    exact congrArg some (by omega)

/-- `findIndex` reports no match when no queued entry carries the id. -/
theorem findIdx_none (downloadId : String) :
    ∀ (l : List QItem) (i : Nat), (∀ y ∈ l, y.downloadId ≠ downloadId) →
      l.findIdx? (fun item => item.downloadId == downloadId) i = none := by
  intro l
  induction l with
  | nil => intro i _; rfl
  | cons y l ih =>
    intro i hall
    have hy : (y.downloadId == downloadId) = false := by
      simp [hall y (List.mem_cons_self _ _)]
    rw [List.findIdx?_cons, hy]
    simp only [Bool.false_eq_true, if_false]
    exact ih (i + 1) (fun z hz => hall z (List.mem_cons_of_mem _ hz))

/-- `splice(index, 1)` at the index of the first match removes exactly
that entry. -/
theorem eraseIdx_at_split (pre : List QItem) (x : QItem) (post : List QItem) :
    (pre ++ x :: post).eraseIdx pre.length = pre ++ post := by
  induction pre with
  | nil => rfl
  | cons y pre ih => simpa [List.eraseIdx_cons_succ] using ih

/-- The queue-position broadcast writes, entry by entry: the `k`-th
remaining entry receives 1-based position `i + k + 1` when the walk
starts at index `i`. -/
theorem broadcastFrom_getElem? (q : List QItem) :
    ∀ i k, (broadcastFrom i q)[k]?
      = q[k]?.map (fun item => (item.downloadId, queuedFields (i + k + 1))) := by
  induction q with
  | nil => intro i k; simp [broadcastFrom]
  | cons item rest ih =>
    intro i k
    cases k with
    | zero => simp [broadcastFrom]
    | succ k =>
      simp only [broadcastFrom, List.getElem?_cons_succ, ih (i + 1) k]
      have : i + 1 + k + 1 = i + (k + 1) + 1 := by omega
      rw [this]

/-- The broadcast reaches every remaining entry. -/
theorem broadcastFrom_length (q : List QItem) :
    ∀ i, (broadcastFrom i q).length = q.length := by
  induction q with
  | nil => intro i; rfl
  | cons item rest ih => intro i; simp [broadcastFrom, ih]

/-- A job id that is neither started nor queued stays unstarted along
any event sequence that never re-submits it. -/
theorem runEvents_not_started (evs : List QEvent) :
    ∀ (s : QState) (downloadId : String),
      (∀ e ∈ evs, ∀ t, e ≠ QEvent.submit downloadId t) →
      downloadId ∉ s.started ++ s.downloadQueue.map QItem.downloadId →
      downloadId ∉ (runEvents s evs).started ++
        (runEvents s evs).downloadQueue.map QItem.downloadId := by
  induction evs with
  | nil => intro s downloadId _ h; exact h
  | cons e evs ih =>
    intro s downloadId hevs h
    refine ih (qstep s e) downloadId
      (fun e' he' t => hevs e' (List.mem_cons_of_mem _ he') t) ?_
    cases e with
    | submit otherId addedAt =>
      have hne : otherId ≠ downloadId := by
        intro hcontra
        exact (hevs _ (List.mem_cons_self _ _) addedAt) (by rw [hcontra])
      simp only [qstep, enqueueDownload]
      rw [processQueue_history]
      intro hmem
      simp only [List.map_append, List.map_cons, List.map_nil, List.mem_append,
        List.mem_cons, List.not_mem_nil, or_false] at hmem
      rcases hmem with h1 | h1 | h1
      · exact h (List.mem_append.mpr (Or.inl h1))
      · exact h (List.mem_append.mpr (Or.inr h1))
      · exact hne h1.symm
    | taskDone =>
      simp only [qstep, taskSettled]
      rw [processQueue_history]
      exact h
    | cancel otherId =>
      simp only [qstep]
      intro hmem
      apply h
      have hsub : List.Sublist
          (s.started ++ ((removeFromQueue s.downloadQueue otherId).1).map QItem.downloadId)
          (s.started ++ s.downloadQueue.map QItem.downloadId) :=
        List.Sublist.append_left
          (List.Sublist.map _ (removeFromQueue_sublist s.downloadQueue otherId)) _
      exact hsub.subset hmem

/-- C7: cancelling a still-queued job removes exactly the first (and,
for unique ids, only) matching entry and reports `true`; on a queue
without a match it reports `false`; the subsequent position broadcast
covers every remaining entry, leaves entries ahead of the removed one
unchanged, and hands every entry behind it a 1-based position exactly
one lower than before; and along any later events that do not re-submit
the id, the job never starts. -/
theorem cancel_queued_removes_and_shifts
    (pre post : List QItem) (x : QItem) (downloadId : String) (a : Nat)
    (st sub : List String) (evs : List QEvent) (j k : Nat)
    (hx : x.downloadId = downloadId)
    (hpre : ∀ y ∈ pre, y.downloadId ≠ downloadId)
    (hpost : ∀ y ∈ post, y.downloadId ≠ downloadId)
    (hst : downloadId ∉ st)
    (hk : k < pre.length)
    (hevs : ∀ e ∈ evs, ∀ t, e ≠ QEvent.submit downloadId t) :
    removeFromQueue (pre ++ x :: post) downloadId = (pre ++ post, true) ∧
      (removeFromQueue (pre ++ post) downloadId).2 = false ∧
      (broadcastQueuePositions (pre ++ post)).length = (pre ++ post).length ∧
      (broadcastQueuePositions (pre ++ post))[k]?
        = (broadcastQueuePositions (pre ++ x :: post))[k]? ∧
      (broadcastQueuePositions (pre ++ x :: post))[pre.length + 1 + j]?
        = post[j]?.map (fun item => (item.downloadId, queuedFields (pre.length + j + 2))) ∧
      (broadcastQueuePositions (pre ++ post))[pre.length + j]?
        = post[j]?.map (fun item => (item.downloadId, queuedFields (pre.length + j + 1))) ∧
      downloadId ∉ (runEvents ⟨a, pre ++ post, st, sub⟩ evs).started := by
  refine ⟨?_, ?_, ?_, ?_, ?_, ?_, ?_⟩
  · unfold removeFromQueue
    rw [findIdx_split pre x post downloadId hx hpre 0]
    simp [eraseIdx_at_split]
  · unfold removeFromQueue
    rw [findIdx_none downloadId (pre ++ post) 0 (by
      intro y hy
      rcases List.mem_append.mp hy with h | h
      · exact hpre y h
      · exact hpost y h)]
  · exact broadcastFrom_length _ 0
  · rw [broadcastQueuePositions, broadcastQueuePositions,
      broadcastFrom_getElem?, broadcastFrom_getElem?]
    simp only [List.getElem?_append]
    rw [if_pos hk, if_pos hk]
  · rw [broadcastQueuePositions, broadcastFrom_getElem?]
    simp only [show 0 + (pre.length + 1 + j) + 1 = pre.length + j + 2 from by omega]
    rw [List.getElem?_append]
    rw [if_neg (by omega)]
    simp only [show pre.length + 1 + j - pre.length = j + 1 from by omega,
      List.getElem?_cons_succ]
  · rw [broadcastQueuePositions, broadcastFrom_getElem?]
    simp only [show 0 + (pre.length + j) + 1 = pre.length + j + 1 from by omega]
    rw [List.getElem?_append]
    rw [if_neg (by omega)]
    simp only [show pre.length + j - pre.length = j from by omega]
  · intro hmem
    have hnotin : downloadId ∉ st ++ (pre ++ post).map QItem.downloadId := by
      intro hm
      rcases List.mem_append.mp hm with h1 | h1
      · exact hst h1
      · rcases List.mem_map.mp h1 with ⟨y, hy, hyid⟩
        rcases List.mem_append.mp hy with h2 | h2
        · exact hpre y h2 hyid
        · exact hpost y h2 hyid
    have h := runEvents_not_started evs ⟨a, pre ++ post, st, sub⟩ downloadId hevs hnotin
    exact h (List.mem_append.mpr (Or.inl hmem))

/-- C7 witness: concrete 3-job queue, cancelling the middle job while
two downloads are active; the trailing job's broadcast position drops
from 3 to 2, and the cancelled job never starts. -/
theorem cancel_queued_removes_and_shifts_witness :
    removeFromQueue [⟨"job-a", 1⟩, ⟨"job-b", 2⟩, ⟨"job-c", 3⟩] "job-b"
        = ([⟨"job-a", 1⟩, ⟨"job-c", 3⟩], true) ∧
      (removeFromQueue [⟨"job-a", 1⟩, ⟨"job-c", 3⟩] "job-b").2 = false ∧
      (broadcastQueuePositions [⟨"job-a", 1⟩, ⟨"job-c", 3⟩]).length = 2 ∧
      (broadcastQueuePositions [⟨"job-a", 1⟩, ⟨"job-c", 3⟩])[0]?
        = (broadcastQueuePositions [⟨"job-a", 1⟩, ⟨"job-b", 2⟩, ⟨"job-c", 3⟩])[0]? ∧
      (broadcastQueuePositions [⟨"job-a", 1⟩, ⟨"job-b", 2⟩, ⟨"job-c", 3⟩])[2]?
        = some ("job-c", queuedFields 3) ∧
      (broadcastQueuePositions [⟨"job-a", 1⟩, ⟨"job-c", 3⟩])[1]?
        = some ("job-c", queuedFields 2) ∧
      "job-b" ∉ (runEvents ⟨2, [⟨"job-a", 1⟩, ⟨"job-c", 3⟩], [], ["job-a", "job-b", "job-c"]⟩
          [QEvent.taskDone]).started :=
  cancel_queued_removes_and_shifts [⟨"job-a", 1⟩] [⟨"job-c", 3⟩] ⟨"job-b", 2⟩ "job-b" 2 []
    ["job-a", "job-b", "job-c"] [QEvent.taskDone] 0 0 rfl (by decide) (by decide) (by decide)
    (by decide)
    (by
      intro e he t
      simp only [List.mem_singleton] at he
      subst he
      exact fun hcontra => QEvent.noConfusion hcontra)

/-! ## C2: progress monotonicity -/

/-- C2 counterexample: a download-percentage line reporting 100% (end of
the first stream of a two-stream download) stores progress 85; a later
line reporting 20% (start of the second stream) lowers the stored
progress to 17 while the status is still the non-terminal
`downloading_video`. -/
theorem progress_monotonicity_counterexample :
    (videoStdoutStep false 600 (initVideoState "job" 0) (dlChunk 100)).record.fields.progress
        = some 85 ∧
      (videoStdoutStep false 600 (initVideoState "job" 0) (dlChunk 100)).record.fields.status
        = some "downloading_video" ∧
      (videoStdoutStep false 1200
            (videoStdoutStep false 600 (initVideoState "job" 0) (dlChunk 100))
            (dlChunk 20)).record.fields.progress = some 17 ∧
      (videoStdoutStep false 1200
            (videoStdoutStep false 600 (initVideoState "job" 0) (dlChunk 100))
            (dlChunk 20)).record.fields.status = some "downloading_video" ∧
      (17 : ℚ) < 85 := by
  refine ⟨?_, ?_, ?_, ?_, by norm_num⟩ <;>
    · simp only [videoStdoutStep, dlChunk, initVideoState, applyFields, mergeFields,
        Option.orElse, Bool.false_eq_true, if_false]
      norm_num

/-- The download-percentage mapping `min(percent * 0.85, 85)` is
monotone in the raw percentage. -/
theorem dlBound_mono {p q : ℚ} (h : p ≤ q) :
    min (p * (85 / 100)) 85 ≤ min (q * (85 / 100)) 85 :=
  min_le_min (mul_le_mul_of_nonneg_right h (by norm_num)) le_rfl

/-- Closed form of the handler on a pure download-percentage chunk:
either the throttle skips it or the record is rewritten with the mapped
percentage. -/
theorem videoStep_dl_eq (n : Nat) (s : VideoDLState) (p : ℚ) :
    videoStdoutStep false n s (dlChunk p) =
      if n - s.lastProgressUpdate > 500 then
        { record :=
            applyFields s.record
              { status := some "downloading_video"
                progress := some (min (p * (85 / 100)) 85)
                message := some ("Mengunduh video: " ++ pctDisplay p ++ "%") } n
          lastProgressUpdate := n }
      else s := by
  by_cases h : n - s.lastProgressUpdate > 500 <;>
    simp [videoStdoutStep, dlChunk, h]

/-- An `applyFields` carrying an explicit progress value stores it. -/
theorem applyFields_progress (r : ProgressRecord) (st ms : Option String) (v : ℚ) (now : Nat) :
    (applyFields r { status := st, progress := some v, message := ms } now).fields.progress
      = some v := rfl

/-- Monotonicity along a run of download-percentage chunks, generalized
over the current record value. -/
theorem progress_steps_aux (chs : List (Nat × ℚ)) :
    ∀ (s : VideoDLState) (q0 : ℚ),
      s.record.fields.progress = some q0 →
      (∀ pc ∈ chs.head?, q0 ≤ min (pc.2 * (85 / 100)) 85) →
      chs.Chain' (fun a b => a.2 ≤ b.2) →
      (List.scanl (fun st nc => videoStdoutStep false nc.1 st (dlChunk nc.2)) s chs).Chain'
        (fun s1 s2 => progAt s1 ≤ progAt s2) := by
  induction chs with
  | nil =>
    intro s q0 _ _ _
    simp [List.scanl]
  | cons nc rest ih =>
    intro s q0 h0 hhead hmono
    rw [List.scanl_cons]
    have hgoal0 : progAt s = q0 := by simp [progAt, h0]
    have hq0 : q0 ≤ min (nc.2 * (85 / 100)) 85 := hhead nc rfl
    have hmono' : rest.Chain' (fun a b => a.2 ≤ b.2) := hmono.tail
    rw [videoStep_dl_eq]
    by_cases hth : nc.1 - s.lastProgressUpdate > 500
    · rw [if_pos hth]
      set s' : VideoDLState :=
        { record :=
            applyFields s.record
              { status := some "downloading_video"
                progress := some (min (nc.2 * (85 / 100)) 85)
                message := some ("Mengunduh video: " ++ pctDisplay nc.2 ++ "%") } nc.1
          lastProgressUpdate := nc.1 } with hs'
      have hs'prog : s'.record.fields.progress = some (min (nc.2 * (85 / 100)) 85) := rfl
      have htail := ih s' (min (nc.2 * (85 / 100)) 85) hs'prog
        (by
          intro pc hpc
          have hle : nc.2 ≤ pc.2 := List.chain'_cons'.mp hmono |>.1 pc hpc
          exact dlBound_mono hle)
        hmono'
      rw [List.singleton_append]
      refine List.chain'_cons'.mpr ⟨?_, htail⟩
      intro y hy
      have hyhead : (List.scanl
          (fun st nc => videoStdoutStep false nc.1 st (dlChunk nc.2)) s' rest).head? = some s' := by
        cases rest <;> simp [List.scanl]
      rw [hyhead] at hy
      cases hy
      rw [hgoal0]
      calc q0 ≤ min (nc.2 * (85 / 100)) 85 := hq0
        _ = progAt s' := rfl
    · rw [if_neg hth]
      have htail := ih s q0 h0
        (by
          intro pc hpc
          have hle : nc.2 ≤ pc.2 := List.chain'_cons'.mp hmono |>.1 pc hpc
          exact le_trans hq0 (dlBound_mono hle))
        hmono'
      rw [List.singleton_append]
      refine List.chain'_cons'.mpr ⟨?_, htail⟩
      intro y hy
      have hyhead : (List.scanl
          (fun st nc => videoStdoutStep false nc.1 st (dlChunk nc.2)) s rest).head? = some s := by
        cases rest <;> simp [List.scanl]
      rw [hyhead] at hy
      cases hy
      exact le_rfl

/-- C2 (amended): across any sequence of download-percentage lines whose
raw reported percentages are non-decreasing and non-negative, the stored
progress of a record starting at 0 never decreases (the mapping
`min(0.85·p, 85)` is monotone and the throttle only skips writes). The
claim's unconditional monotonicity fails: a line with a lower raw
percentage — as produced when a second stream starts — lowers the stored
value. -/
theorem progress_monotone_of_monotone_percents (s : VideoDLState) (chs : List (Nat × ℚ))
    (h0 : s.record.fields.progress = some 0)
    (hnn : ∀ pc ∈ chs, 0 ≤ pc.2)
    (hmono : chs.Chain' (fun a b => a.2 ≤ b.2)) :
    (List.scanl (fun st nc => videoStdoutStep false nc.1 st (dlChunk nc.2)) s chs).Chain'
      (fun s1 s2 => progAt s1 ≤ progAt s2) := by
  refine progress_steps_aux chs s 0 h0 ?_ hmono
  intro pc hpc
  have hmem : pc ∈ chs := by
    cases chs with
    | nil => cases hpc
    | cons a l =>
      cases hpc
      exact List.mem_cons_self _ _
  have := hnn pc hmem
  have h85 : (0 : ℚ) ≤ 85 := by norm_num
  refine le_min ?_ h85
  positivity

/-- C2 witness: the amended theorem on two increasing percentage lines
from the initial video-download state. -/
theorem progress_monotone_witness :
    (List.scanl (fun st nc => videoStdoutStep false nc.1 st (dlChunk nc.2))
        (initVideoState "job" 0) [(600, (10 : ℚ)), (1200, 50)]).Chain'
      (fun s1 s2 => progAt s1 ≤ progAt s2) :=
  progress_monotone_of_monotone_percents (initVideoState "job" 0) [(600, 10), (1200, 50)] rfl
    (by
      intro pc hpc
      simp only [List.mem_cons, List.not_mem_nil, or_false] at hpc
      rcases hpc with h | h <;> subst h <;> norm_num)
    (by
      simp only [List.chain'_cons, List.chain'_singleton, and_true]
      norm_num)

/-! ## C9: sanitizeFilename -/

/-- Stage 1 leaves only clean characters: every forbidden character
became an underscore. -/
theorem replaceBad_clean (l : List Char) :
    ∀ c ∈ replaceBad l, badChar c = false := by
  intro c hc
  rcases List.mem_map.mp hc with ⟨b, _, rfl⟩
  by_cases hb : badChar b = true
  · rw [if_pos hb]
    decide
  · simp only [Bool.not_eq_true] at hb
    rw [if_neg (by rw [hb]; exact Bool.false_ne_true)]
    exact hb

/-- Stages 1-2 leave only clean characters: CR/LF/TAB became spaces. -/
theorem replaceChain_clean (l : List Char) :
    ∀ c ∈ replaceCtrlWs (replaceBad l), badChar c = false := by
  intro c hc
  rcases List.mem_map.mp hc with ⟨a, ha, rfl⟩
  have haclean := replaceBad_clean l a ha
  by_cases hcr : (a == '\r' || a == '\n' || a == '\t') = true
  · rw [if_pos hcr]
    decide
  · rw [if_neg hcr]
    exact haclean

/-- Dot-run collapsing only keeps characters of the input. -/
theorem mem_collapseDotsAux (l : List Char) :
    ∀ (b : Bool) (c : Char), c ∈ collapseDotsAux b l → c ∈ l := by
  induction l with
  | nil => intro b c hc; cases hc
  | cons a rest ih =>
    intro b c hc
    by_cases ha : (a == '.') = true
    · have ha' : a = '.' := beq_iff_eq.mp ha
      cases b with
      | true =>
        simp only [collapseDotsAux, ha, if_true] at hc
        exact List.mem_cons_of_mem _ (ih true c hc)
      | false =>
        simp only [collapseDotsAux, ha, if_true, Bool.false_eq_true, if_false] at hc
        rcases List.mem_cons.mp hc with h | h
        · rw [h, ← ha']
          exact List.mem_cons_self _ _
        · exact List.mem_cons_of_mem _ (ih true c h)
    · simp only [collapseDotsAux, ha, Bool.false_eq_true, if_false] at hc
      rcases List.mem_cons.mp hc with h | h
      · rw [h]
        exact List.mem_cons_self _ _
      · exact List.mem_cons_of_mem _ (ih false c h)

/-- Whitespace collapsing only keeps characters of the input or inserts
plain spaces. -/
theorem mem_collapseWsAux (l : List Char) :
    ∀ (b : Bool) (c : Char), c ∈ collapseWsAux b l → c ∈ l ∨ c = ' ' := by
  induction l with
  | nil => intro b c hc; cases hc
  | cons a rest ih =>
    intro b c hc
    by_cases ha : isJsWs a = true
    · cases b with
      | true =>
        simp only [collapseWsAux, ha, if_true] at hc
        rcases ih true c hc with h | h
        · exact Or.inl (List.mem_cons_of_mem _ h)
        · exact Or.inr h
      | false =>
        simp only [collapseWsAux, ha, if_true, Bool.false_eq_true, if_false] at hc
        rcases List.mem_cons.mp hc with h | h
        · exact Or.inr h
        · rcases ih true c h with h' | h'
          · exact Or.inl (List.mem_cons_of_mem _ h')
          · exact Or.inr h'
    · simp only [collapseWsAux, ha, Bool.false_eq_true, if_false] at hc
      rcases List.mem_cons.mp hc with h | h
      · exact Or.inl (h ▸ List.mem_cons_self _ _)
      · rcases ih false c h with h' | h'
        · exact Or.inl (List.mem_cons_of_mem _ h')
        · exact Or.inr h'

/-- Trailing-run removal only keeps characters of the input. -/
theorem mem_dropTrailWhile (p : Char → Bool) (l : List Char) :
    ∀ c ∈ dropTrailWhile p l, c ∈ l := by
  induction l with
  | nil => intro c hc; cases hc
  | cons a rest ih =>
    intro c hc
    simp only [dropTrailWhile] at hc
    rcases hdtw : dropTrailWhile p rest with _ | ⟨r0, rtail⟩ <;> rw [hdtw] at hc
    · by_cases hp : p a = true
      · rw [if_pos hp] at hc
        cases hc
      · rw [if_neg (by rw [Bool.not_eq_true] at hp; rw [hp]; exact Bool.false_ne_true)] at hc
        rcases List.mem_singleton.mp hc with h
        rw [h]
        exact List.mem_cons_self _ _
    · rcases List.mem_cons.mp hc with h | h
      · rw [h]
        exact List.mem_cons_self _ _
      · exact List.mem_cons_of_mem _ (ih c (hdtw ▸ h))

/-- Trailing-run removal keeps the head of the list (when anything is
left). -/
theorem dropTrailWhile_head? (p : Char → Bool) (l : List Char) :
    dropTrailWhile p l = [] ∨ (dropTrailWhile p l).head? = l.head? := by
  cases l with
  | nil => exact Or.inl rfl
  | cons a rest =>
    simp only [dropTrailWhile]
    rcases hdtw : dropTrailWhile p rest with _ | ⟨r0, rtail⟩
    · by_cases hp : p a = true
      · rw [if_pos hp]
        exact Or.inl rfl
      · rw [if_neg (by rw [Bool.not_eq_true] at hp; rw [hp]; exact Bool.false_ne_true)]
        exact Or.inr rfl
    · exact Or.inr rfl

/-- Splitting rule for `noDD` at a cons. -/
theorem noDD_cons_iff (a : Char) (l : List Char) :
    noDD (a :: l) = true ↔ noDD l = true ∧ ∀ b ∈ l.head?, okPair a b = true := by
  cases l with
  | nil => simp [noDD]
  | cons b rest =>
    simp only [noDD, Bool.and_eq_true, List.head?_cons, Option.mem_def, Option.some.injEq]
    constructor
    · rintro ⟨h1, h2⟩
      exact ⟨h2, fun x hx => hx ▸ h1⟩
    · rintro ⟨h1, h2⟩
      exact ⟨h2 b rfl, h1⟩

/-- `noDD` restricted to the tail. -/
theorem noDD_tail {a : Char} {l : List Char} (h : noDD (a :: l) = true) : noDD l = true :=
  ((noDD_cons_iff a l).mp h).1

/-- Dot-run collapsing yields a dot-free adjacency structure; when the
previous character kept was a dot, the output cannot begin with one. -/
theorem cda_noDD (l : List Char) :
    ∀ b : Bool, noDD (collapseDotsAux b l) = true ∧
      (b = true → ∀ c ∈ (collapseDotsAux b l).head?, c ≠ '.') := by
  induction l with
  | nil =>
    intro b
    exact ⟨rfl, fun _ c hc => by cases hc⟩
  | cons a rest ih =>
    intro b
    by_cases ha : (a == '.') = true
    · cases b with
      | true =>
        simp only [collapseDotsAux, ha, if_true]
        exact ⟨(ih true).1, fun _ => (ih true).2 rfl⟩
      | false =>
        simp only [collapseDotsAux, ha, if_true, Bool.false_eq_true, if_false]
        constructor
        · rw [noDD_cons_iff]
          refine ⟨(ih true).1, ?_⟩
          intro c hc
          have hne := (ih true).2 rfl c hc
          simp [okPair, beq_iff_eq, hne]
        · intro hcontra
          simp at hcontra
    · have ha' : a ≠ '.' := by
        intro hcontra
        exact ha (beq_iff_eq.mpr hcontra)
      simp only [collapseDotsAux, ha, Bool.false_eq_true, if_false]
      constructor
      · rw [noDD_cons_iff]
        refine ⟨(ih false).1, ?_⟩
        intro c _
        simp [okPair, beq_iff_eq, ha']
      · intro _ c hc
        simp only [List.head?_cons, Option.mem_def, Option.some.injEq] at hc
        rw [← hc]
        exact ha'

/-- Head of whitespace collapsing started outside a whitespace run. -/
theorem cwa_false_head? (l : List Char) :
    (collapseWsAux false l).head?
      = l.head?.map (fun d => if isJsWs d then ' ' else d) := by
  cases l with
  | nil => rfl
  | cons d rest =>
    by_cases hd : isJsWs d = true
    · simp [collapseWsAux, hd]
    · simp [collapseWsAux, hd]

/-- Whitespace collapsing preserves the absence of double dots. -/
theorem cwa_noDD (l : List Char) :
    ∀ b : Bool, noDD l = true → noDD (collapseWsAux b l) = true := by
  induction l with
  | nil => intro b _; rfl
  | cons a rest ih =>
    intro b hl
    have hrest : noDD rest = true := noDD_tail hl
    have hsp : ∀ x : Char, okPair x ' ' = true := by
      intro x
      simp [okPair]
    by_cases ha : isJsWs a = true
    · cases b with
      | true =>
        simpa only [collapseWsAux, ha, if_true] using ih true hrest
      | false =>
        simp only [collapseWsAux, ha, if_true, Bool.false_eq_true, if_false]
        rw [noDD_cons_iff]
        refine ⟨ih true hrest, ?_⟩
        intro c _
        simp [okPair]
    · simp only [collapseWsAux, ha, Bool.false_eq_true, if_false]
      rw [noDD_cons_iff]
      refine ⟨ih false hrest, ?_⟩
      intro c hc
      rw [cwa_false_head?] at hc
      cases rest with
      | nil => cases hc
      | cons d rest' =>
        simp only [List.head?_cons, Option.map_some', Option.mem_def, Option.some.injEq] at hc
        by_cases hd : isJsWs d = true
        · rw [if_pos hd] at hc
          rw [← hc]
          exact hsp a
        · rw [if_neg (by rw [Bool.not_eq_true] at hd; rw [hd]; exact Bool.false_ne_true)] at hc
          rw [← hc]
          exact (((noDD_cons_iff a (d :: rest')).mp hl).2) d rfl

/-- Leading-run removal preserves the absence of double dots. -/
theorem noDD_dropWhile (p : Char → Bool) (l : List Char) (h : noDD l = true) :
    noDD (l.dropWhile p) = true := by
  induction l with
  | nil => exact h
  | cons a rest ih =>
    by_cases hp : p a = true
    · simp only [List.dropWhile_cons, hp, if_true]
      exact ih (noDD_tail h)
    · simp only [List.dropWhile_cons, hp, Bool.false_eq_true, if_false]
      exact h

/-- Trailing-run removal preserves the absence of double dots. -/
theorem noDD_dropTrailWhile (p : Char → Bool) (l : List Char) (h : noDD l = true) :
    noDD (dropTrailWhile p l) = true := by
  induction l with
  | nil => exact h
  | cons a rest ih =>
    have hrest := ih (noDD_tail h)
    simp only [dropTrailWhile]
    rcases hdtw : dropTrailWhile p rest with _ | ⟨r0, rtail⟩
    · by_cases hp : p a = true
      · rw [if_pos hp]
        rfl
      · rw [if_neg (by rw [Bool.not_eq_true] at hp; rw [hp]; exact Bool.false_ne_true)]
        rfl
    · rw [noDD_cons_iff]
      rw [hdtw] at hrest
      refine ⟨hrest, ?_⟩
      intro c hc
      rcases dropTrailWhile_head? p rest with hnil | hhead
      · rw [hnil] at hdtw
        cases hdtw
      · rw [hdtw] at hhead
        simp only [List.head?_cons, Option.mem_def, Option.some.injEq] at hc
        refine (((noDD_cons_iff a rest).mp h).2) c ?_
        rw [← hhead, ← hc]
        rfl

/-- Truncation preserves the absence of double dots. -/
theorem noDD_take (n : Nat) (l : List Char) (h : noDD l = true) :
    noDD (l.take n) = true := by
  induction l generalizing n with
  | nil => rw [List.take_nil]; rfl
  | cons a rest ih =>
    cases n with
    | zero => rfl
    | succ n =>
      rw [List.take_succ_cons, noDD_cons_iff]
      refine ⟨ih n (noDD_tail h), ?_⟩
      intro c hc
      cases n with
      | zero => cases hc
      | succ m =>
        cases rest with
        | nil => cases hc
        | cons d rest' =>
          simp only [List.take_succ_cons, List.head?_cons, Option.mem_def,
            Option.some.injEq] at hc
          rw [← hc]
          exact (((noDD_cons_iff a (d :: rest')).mp h).2) d rfl

/-- The full replacement chain: output at most 150 characters, only
clean characters, and never two adjacent dots. -/
theorem sanitizeChars_clean (l : List Char) :
    (sanitizeChars l).length ≤ MAX_FILENAME_LENGTH ∧
      (∀ c ∈ sanitizeChars l, badChar c = false) ∧
      noDD (sanitizeChars l) = true := by
  unfold sanitizeChars jsTrim dropEdgeDots collapseWs collapseDots
  refine ⟨List.length_take_le _ _, ?_, ?_⟩
  · intro c hc
    have hc1 := (List.take_sublist _ _).subset hc
    have hc2 := mem_dropTrailWhile isJsWs _ c hc1
    have hc3 := (List.dropWhile_sublist isJsWs).subset hc2
    rcases mem_collapseWsAux _ false c hc3 with hc4 | hsp
    · have hc5 := mem_dropTrailWhile (· == '.') _ c hc4
      have hc6 := (List.dropWhile_sublist (· == '.')).subset hc5
      have hc7 := mem_collapseDotsAux _ false c hc6
      exact replaceChain_clean l c hc7
    · rw [hsp]
      decide
  · exact noDD_take _ _ (noDD_dropTrailWhile _ _ (noDD_dropWhile _ _ (cwa_noDD _ false
      (noDD_dropTrailWhile _ _ (noDD_dropWhile _ _ (cda_noDD _ false).1)))))

/-- C9 counterexample: the input `" .a"` (space, dot, letter) comes out
as `".a"`: the dot-stripping stage ran before whitespace trimming, so
the result begins with a dot, refuting the no-leading-dot conjunct. -/
theorem sanitizeFilename_leading_dot_counterexample :
    sanitizeFilename (some " .a") = ".a" ∧
      (sanitizeFilename (some " .a")).toList.head? = some '.' := by
  constructor <;> decide

/-- C9 (amended): `sanitizeFilename` is total, its output has length at
most 150, contains neither the nine forbidden filesystem characters nor
C0 control characters, and never two adjacent dots; a missing, empty, or
non-string input yields `'download'`. The original no-leading/trailing-
dot conjunct fails: trimming and truncation run after dot-stripping and
can re-expose a dot at either end. -/
theorem sanitizeFilename_sanitized (o : Option String) :
    (sanitizeFilename o).length ≤ MAX_FILENAME_LENGTH ∧
      (∀ c ∈ (sanitizeFilename o).toList, badChar c = false) ∧
      noDD (sanitizeFilename o).toList = true ∧
      sanitizeFilename none = "download" ∧ sanitizeFilename (some "") = "download" := by
  have key : (sanitizeFilename o).toList.length ≤ MAX_FILENAME_LENGTH ∧
      (∀ c ∈ (sanitizeFilename o).toList, badChar c = false) ∧
      noDD (sanitizeFilename o).toList = true := by
    cases o with
    | none => exact ⟨by decide, by decide, by decide⟩
    | some s =>
      by_cases hs : (s == "") = true
      · have heq : sanitizeFilename (some s) = "download" := by
          simp [sanitizeFilename, hs]
        rw [heq]
        exact ⟨by decide, by decide, by decide⟩
      · have heq : sanitizeFilename (some s) = String.mk (sanitizeChars s.toList) := by
          simp [sanitizeFilename, hs]
        rw [heq]
        exact sanitizeChars_clean s.toList
  exact ⟨key.1, key.2.1, key.2.2, rfl, rfl⟩

/-! ## C10: the finished file list of a video job -/

/-- `getRecentFiles` returns at most `limit` entries, sorted newest
first, each drawn from a directory entry with a matching extension and a
successful stat. -/
theorem getRecentFiles_spec (entries : List DirEntry) (extension : String) (limit : Nat) :
    (getRecentFiles entries extension limit).length ≤ limit ∧
      (getRecentFiles entries extension limit).Sorted mtimeGe ∧
      (∀ f ∈ getRecentFiles entries extension limit, ∃ e ∈ entries,
        e.name = f.name ∧ endsWithCI e.name extension = true ∧
          e.stat = some (f.size, mtime0 f)) := by
  refine ⟨List.length_take_le _ _, ?_, ?_⟩
  · exact List.Pairwise.sublist (List.take_sublist _ _)
      (List.sorted_insertionSort mtimeGe _)
  · intro f hf
    have h1 := (List.take_sublist _ _).subset hf
    have h2 := (List.perm_insertionSort mtimeGe _).mem_iff.mp h1
    rcases List.mem_filterMap.mp h2 with ⟨e, he, hmap⟩
    have hefil := List.mem_filter.mp he
    rcases hstat : e.stat with _ | ⟨sz, mt⟩
    · rw [hstat] at hmap
      cases hmap
    · rw [hstat] at hmap
      simp only [Option.map_some', Option.some.injEq] at hmap
      subst hmap
      refine ⟨e, hefil.1, rfl, hefil.2, ?_⟩
      rw [hstat]
      rfl

/-- C10: a video job finishing with exit code 0 resolves successfully
and writes a `finished` record whose file list is exactly
`getRecentFiles` of the shared downloads directory (filtered by the
target extension, newest first, truncated to 5) — a function of the
directory alone, not of the job's own outputs, so files written by other
jobs qualify; the list always has length at most 5. -/
theorem finished_files_from_shared_dir (s : LifeState) (dir : List DirEntry)
    (format : String) (now : Nat) (h : s.cancelled = false) :
    (videoCloseStep s 0 dir format now).2 = Except.ok () ∧
      (videoCloseStep s 0 dir format now).1.record.fields.status = some "finished" ∧
      (videoCloseStep s 0 dir format now).1.record.fields.files
        = some (getRecentFiles dir ("." ++ (if format == "" then "mp4" else format)) 5) ∧
      (getRecentFiles dir ("." ++ (if format == "" then "mp4" else format)) 5).length ≤ 5 ∧
      (getRecentFiles dir ("." ++ (if format == "" then "mp4" else format)) 5).Sorted mtimeGe ∧
      (∀ f ∈ getRecentFiles dir ("." ++ (if format == "" then "mp4" else format)) 5,
        ∃ e ∈ dir, e.name = f.name ∧
          endsWithCI e.name ("." ++ (if format == "" then "mp4" else format)) = true ∧
          e.stat = some (f.size, mtime0 f)) := by
  have hspec := getRecentFiles_spec dir ("." ++ (if format == "" then "mp4" else format)) 5
  simp only [videoCloseStep, h, Bool.false_eq_true, if_false, if_pos (show (0 : Int) = 0 from rfl)]
  exact ⟨rfl, rfl, rfl, hspec.1, hspec.2.1, hspec.2.2⟩

/-- C10 witness: a directory holding a newer file from another job and
the job's own file; the other job's file appears in the finished list. -/
theorem finished_files_witness :
    ((videoCloseStep ⟨⟨{}, "job", 0⟩, false⟩ 0
          [⟨"other_video.mp4", some (100, 2000)⟩, ⟨"mine.mp4", some (50, 1000)⟩]
          "mp4" 5).2 = Except.ok () ∧
        (videoCloseStep ⟨⟨{}, "job", 0⟩, false⟩ 0
            [⟨"other_video.mp4", some (100, 2000)⟩, ⟨"mine.mp4", some (50, 1000)⟩]
            "mp4" 5).1.record.fields.status = some "finished" ∧
        (videoCloseStep ⟨⟨{}, "job", 0⟩, false⟩ 0
            [⟨"other_video.mp4", some (100, 2000)⟩, ⟨"mine.mp4", some (50, 1000)⟩]
            "mp4" 5).1.record.fields.files
          = some (getRecentFiles
              [⟨"other_video.mp4", some (100, 2000)⟩, ⟨"mine.mp4", some (50, 1000)⟩]
              ("." ++ (if "mp4" == "" then "mp4" else "mp4")) 5) ∧
        (getRecentFiles [⟨"other_video.mp4", some (100, 2000)⟩, ⟨"mine.mp4", some (50, 1000)⟩]
            ("." ++ (if "mp4" == "" then "mp4" else "mp4")) 5).length ≤ 5 ∧
        (getRecentFiles [⟨"other_video.mp4", some (100, 2000)⟩, ⟨"mine.mp4", some (50, 1000)⟩]
            ("." ++ (if "mp4" == "" then "mp4" else "mp4")) 5).Sorted mtimeGe ∧
        (∀ f ∈ getRecentFiles
            [⟨"other_video.mp4", some (100, 2000)⟩, ⟨"mine.mp4", some (50, 1000)⟩]
            ("." ++ (if "mp4" == "" then "mp4" else "mp4")) 5,
          ∃ e ∈ [(⟨"other_video.mp4", some (100, 2000)⟩ : DirEntry),
              ⟨"mine.mp4", some (50, 1000)⟩], e.name = f.name ∧
            endsWithCI e.name ("." ++ (if "mp4" == "" then "mp4" else "mp4")) = true ∧
            e.stat = some (f.size, mtime0 f))) ∧
      (∃ f ∈ getRecentFiles
          [⟨"other_video.mp4", some (100, 2000)⟩, ⟨"mine.mp4", some (50, 1000)⟩]
          ".mp4" 5, f.name = "other_video.mp4") :=
  ⟨finished_files_from_shared_dir ⟨⟨{}, "job", 0⟩, false⟩
      [⟨"other_video.mp4", some (100, 2000)⟩, ⟨"mine.mp4", some (50, 1000)⟩] "mp4" 5 rfl,
    by decide⟩
